import Mathlib

/-!
# Verification of the CrystalBallSimulator solver

Shallow embedding of the `useCrystalBallSolver` hook
(`src/hooks/useCrystalBallSolver.ts`, with an equivalent inline copy in
`App.tsx`): the probe-sequence planner, the incremental `step`, the batch
`runAll` and `reset`, together with proofs of the specified properties.

Floors are modelled as `Int` (JavaScript numbers holding integer values;
the sentinel "previous safe floor" is `-1`). The two integer divisions in
the source, `k*(k+1)/2`, act on non-negative integers and are exact, so
they are modelled by `Nat` division.
-/

namespace CrystalBall

/-- `SolverState` from `src/types/solver.ts`: the state owned by the hook. -/
structure SolverState where
  sequence : List Int
  drops : List Int
  foundFloor : Option Int
  totalDrops : Nat
  finished : Bool
deriving DecidableEq

/-- The record returned by `step()`:
`{ action: string; floorTested?: number; broke?: boolean }`. -/
structure StepResult where
  action : String
  floorTested : Option Int
  broke : Option Bool
deriving DecidableEq

/-- The state installed by `reset()` (also the hook's `useState` initial
value): everything empty, `finished: false`. -/
def resetState : SolverState :=
  { sequence := [], drops := [], foundFloor := none, totalDrops := 0, finished := false }

/-- The `while ((kLocal * (kLocal + 1)) / 2 < n) kLocal++` loop of the
`useMemo` computing `k`. -/
def kLoop (n : Int) (kLocal : Nat) : Nat :=
  if ((kLocal * (kLocal + 1) / 2 : Nat) : Int) < n then kLoop n (kLocal + 1) else kLocal
termination_by (n - kLocal).toNat
decreasing_by
  rename_i h
  have h1 : kLocal ≤ kLocal * (kLocal + 1) / 2 := by
    apply (Nat.le_div_iff_mul_le (by norm_num)).mpr
    rcases Nat.eq_zero_or_pos kLocal with h0 | h0
    · simp [h0]
    · exact mul_le_mul_left' (by omega) kLocal
  have h2 : (kLocal : Int) < n := lt_of_le_of_lt (by exact_mod_cast h1) h
  omega

/-- `k`, computed by the hook's `useMemo` from `n` alone. -/
def computeK (n : Int) : Nat := kLoop n 0

/-- The `while (current < n && step > 0) { seq.push(current); step -= 1;
current += step; }` loop of the planning `useEffect`, recursing
structurally on `step`. -/
def seqLoop (n : Int) (current : Int) : Nat → List Int
  | 0 => []
  | s + 1 => if current < n then current :: seqLoop n (current + s) s else []

/-- The planning `useEffect` body: for `n <= 0` it calls `reset()`;
otherwise it builds the first-phase sequence from `k` (appending the
clamped single entry `min(k, n-1)` when the loop produced nothing) and
installs a fresh state. -/
def plan (n : Int) : SolverState :=
  if n ≤ 0 then resetState
  else
    let k := computeK n
    let seq := seqLoop n k k
    let seq := if seq.length = 0 then [min (k : Int) (n - 1)] else seq
    { sequence := seq, drops := [], foundFloor := none, totalDrops := 0, finished := false }

/-- `testBreaks(floor) = floor >= secretF`: the monotone break predicate. -/
def testBreaks (secretF floor : Int) : Bool := secretF ≤ floor

/-- The incremental `step()`. The source computes
`pastBreakIndex = drops.findIndex(testBreaks)` and runs the first-phase
branch when it is `-1`; otherwise (or when the first phase is exhausted)
it falls through to the linear-scan branch guarded by the same
`findIndex`, and finally to `finished: true`. -/
def step (secretF : Int) (s : SolverState) : SolverState × StepResult :=
  if s.finished then (s, ⟨"finished", none, none⟩) else
  match s.drops.findIdx? (fun d => testBreaks secretF d) with
  | none =>
    let firstPhaseIndex := s.drops.length
    if firstPhaseIndex < s.sequence.length then
      let floorToTest := s.sequence.getD firstPhaseIndex 0
      let broke := testBreaks secretF floorToTest
      ({ s with drops := s.drops ++ [floorToTest], totalDrops := s.totalDrops + 1 },
       ⟨if broke then "break" else "safe", some floorToTest, some broke⟩)
    else
      ({ s with finished := true }, ⟨"finished", none, none⟩)
  | some brokeIndex =>
    let breakFloor := s.drops.getD brokeIndex 0
    let prevSafe := if brokeIndex = 0 then -1 else s.drops.getD (brokeIndex - 1) 0
    let nextLinear := prevSafe + 1 + ((s.drops.length : Int) - (brokeIndex + 1))
    if nextLinear ≤ breakFloor then
      if testBreaks secretF nextLinear then
        ({ s with drops := s.drops ++ [nextLinear], totalDrops := s.totalDrops + 1,
                  foundFloor := some nextLinear, finished := true },
         ⟨"found", some nextLinear, some true⟩)
      else
        ({ s with drops := s.drops ++ [nextLinear], totalDrops := s.totalDrops + 1 },
         ⟨"linear-safe", some nextLinear, some false⟩)
    else
      ({ s with finished := true }, ⟨"finished", none, none⟩)

/-- `m` repeated `step()` calls (first call first). -/
def stepN (secretF : Int) : Nat → SolverState → SolverState
  | 0, s => s
  | m + 1, s => stepN secretF m (step secretF s).1

/-- The inner loop of `runAll`'s first phase:
`for (lin = prevSafe+1; lin <= f; lin++) { push; total++; if breaks, found = lin, break }`. -/
def scanLoop (secretF f lin : Int) (drops : List Int) (total : Nat) :
    List Int × Nat × Option Int :=
  if lin ≤ f then
    if testBreaks secretF lin then (drops ++ [lin], total + 1, some lin)
    else scanLoop secretF f (lin + 1) (drops ++ [lin]) (total + 1)
  else (drops, total, none)
termination_by (f + 1 - lin).toNat
decreasing_by
  rename_i h _
  omega

/-- The outer loop of `runAll`'s first phase. The source iterates over
`sequence` by index `i` and uses `sequence[i-1]` (or `-1` at `i = 0`) as
the previous safe floor; here that value is the `prevSafe` accumulator. -/
def descendLoop (secretF : Int) (prevSafe : Int) (drops : List Int) (total : Nat) :
    List Int → List Int × Nat × Option Int
  | [] => (drops, total, none)
  | f :: rest =>
    if testBreaks secretF f then
      scanLoop secretF f (prevSafe + 1) (drops ++ [f]) (total + 1)
    else
      descendLoop secretF f (drops ++ [f]) (total + 1) rest

/-- `runAll`'s fallback loop when the first phase found nothing:
`for (lin = lastTested+1; lin < n; lin++) { push; total++; if breaks, found = lin, break }`. -/
def fallbackScan (n secretF lin : Int) (drops : List Int) (total : Nat) :
    List Int × Nat × Option Int :=
  if lin < n then
    if testBreaks secretF lin then (drops ++ [lin], total + 1, some lin)
    else fallbackScan n secretF (lin + 1) (drops ++ [lin]) (total + 1)
  else (drops, total, none)
termination_by (n - lin).toNat
decreasing_by
  rename_i h _
  omega

/-- The simulation performed by `runAll()`: first phase over `sequence`
with the bracketing linear scan, then the fallback scan up to `n - 1`,
then the last-resort default `n === 0 ? 0 : n - 1`. Returns
`(simDrops, total, found)`. -/
def runAllSim (n secretF : Int) (seq : List Int) : List Int × Nat × Int :=
  let r1 := descendLoop secretF (-1) [] 0 seq
  let r2 :=
    match r1.2.2 with
    | some _ => r1
    | none =>
      let lastTested := r1.1.getLastD (-1)
      fallbackScan n secretF (lastTested + 1) r1.1 r1.2.1
  let found :=
    match r2.2.2 with
    | some f => f
    | none => if n = 0 then 0 else n - 1
  (r2.1, r2.2.1, found)

/-- `runAll()`: runs the simulation on the current `sequence` and installs
`{ ...state, drops: simDrops, totalDrops: total, foundFloor: found,
finished: true }`, returning `{ simDrops, total, found }`. -/
def runAll (n secretF : Int) (s : SolverState) : SolverState × (List Int × Nat × Int) :=
  let r := runAllSim n secretF s.sequence
  ({ s with drops := r.1, totalDrops := r.2.1, foundFloor := some r.2.2, finished := true }, r)

/-! ## List helpers -/

lemma getLastD_of_ne_nil {l : List Int} (h : l ≠ []) (d d' : Int) :
    l.getLastD d = l.getLastD d' := by
  cases l with
  | nil => exact absurd rfl h
  | cons a t => simp only [List.getLastD_cons]

lemma getLastD_mem {l : List Int} (h : l ≠ []) (d : Int) : l.getLastD d ∈ l := by
  induction l generalizing d with
  | nil => exact absurd rfl h
  | cons a t ih =>
    rw [List.getLastD_cons]
    cases t with
    | nil => simp [List.getLastD]
    | cons b t' => exact List.mem_cons_of_mem a (ih (by simp) a)

lemma getD_length_sub_one {l : List Int} (h : l ≠ []) (d : Int) :
    l.getD (l.length - 1) d = l.getLastD d := by
  induction l generalizing d with
  | nil => exact absurd rfl h
  | cons a t ih =>
    rw [List.getLastD_cons]
    cases t with
    | nil => rfl
    | cons b t' =>
      have h1 : (a :: b :: t').length - 1 = ((b :: t').length - 1) + 1 := by
        simp [List.length_cons]
      rw [h1]
      show (b :: t').getD ((b :: t').length - 1) d = _
      rw [ih (by simp) d]
      exact getLastD_of_ne_nil (by simp) d a

lemma take_succ_getD {l : List Int} {j : Nat} (h : j < l.length) (d : Int) :
    l.take (j + 1) = l.take j ++ [l.getD j d] := by
  rw [List.take_succ]
  congr 1
  rw [List.getD_eq_getElem?_getD, List.getElem?_eq_getElem h]
  rfl

lemma findIdx?_some_bounds {α : Type} {p : α → Bool} :
    ∀ (l : List α) (i j : Nat), List.findIdx? p l i = some j → i ≤ j ∧ j < i + l.length := by
  intro l
  induction l with
  | nil => intro i j h; simp [List.findIdx?] at h
  | cons a t ih =>
    intro i j h
    rw [List.findIdx?_cons] at h
    by_cases hp : p a = true
    · rw [if_pos hp] at h
      obtain rfl : i = j := by simpa using h
      simp
    · rw [if_neg hp] at h
      have := ih (i + 1) j h
      constructor <;> [omega; (simp only [List.length_cons]; omega)]

lemma findIdx?_append_some {α : Type} {p : α → Bool} :
    ∀ (l1 l2 : List α) (i j : Nat), List.findIdx? p l1 i = some j →
      List.findIdx? p (l1 ++ l2) i = some j := by
  intro l1
  induction l1 with
  | nil => intro l2 i j h; simp [List.findIdx?] at h
  | cons a t ih =>
    intro l2 i j h
    rw [List.findIdx?_cons] at h
    rw [List.cons_append, List.findIdx?_cons]
    by_cases hp : p a = true
    · rwa [if_pos hp] at h ⊢
    · rw [if_neg hp] at h ⊢
      exact ih l2 (i + 1) j h

lemma findIdx?_first {α : Type} {p : α → Bool} :
    ∀ (l1 : List α) (b : α) (l2 : List α) (i : Nat), (∀ x ∈ l1, p x = false) → p b = true →
      List.findIdx? p (l1 ++ b :: l2) i = some (i + l1.length) := by
  intro l1
  induction l1 with
  | nil =>
    intro b l2 i _ hb
    rw [List.nil_append, List.findIdx?_cons, if_pos hb]
    simp
  | cons a t ih =>
    intro b l2 i hsafe hb
    rw [List.cons_append, List.findIdx?_cons,
      if_neg (by simp [hsafe a (List.mem_cons_self a t)]),
      ih b l2 (i + 1) (fun x hx => hsafe x (List.mem_cons_of_mem a hx)) hb]
    congr 1
    simp [List.length_cons]
    omega

/-! ## Integer ranges: `[a, a+1, ..., b]` -/

/-- The list of integers from `a` to `b` inclusive (empty when `b < a`),
describing the floors visited by the linear-scan loops. -/
def intRange (a b : Int) : List Int :=
  (List.range (b + 1 - a).toNat).map (fun i : Nat => a + (i : Int))

lemma intRange_empty {a b : Int} (h : b < a) : intRange a b = [] := by
  have : (b + 1 - a).toNat = 0 := by omega
  simp [intRange, this]

lemma intRange_length (a b : Int) : (intRange a b).length = (b + 1 - a).toNat := by
  simp [intRange]

lemma intRange_snoc {a b : Int} (h : a ≤ b + 1) : intRange a (b + 1) = intRange a b ++ [b + 1] := by
  have h1 : (b + 1 + 1 - a).toNat = (b + 1 - a).toNat + 1 := by omega
  rw [intRange, h1, List.range_succ, List.map_append, intRange]
  congr 1
  simp only [List.map_cons, List.map_nil]
  have h2 : a + ((b + 1 - a).toNat : Int) = b + 1 := by omega
  rw [h2]

lemma intRange_cons {a b : Int} (h : a ≤ b) : intRange a b = a :: intRange (a + 1) b := by
  have h1 : (b + 1 - a).toNat = (b + 1 - (a + 1)).toNat + 1 := by omega
  rw [intRange, h1, List.range_succ_eq_map, intRange]
  simp only [List.map_cons, List.map_map]
  congr 1
  · simp
  · exact List.map_congr_left (fun i _ => by simp only [Function.comp_apply]; push_cast; ring)

lemma intRange_getLast? {a b : Int} (h : a ≤ b) : (intRange a b).getLast? = some b := by
  rw [show b = (b - 1) + 1 by ring, intRange_snoc (by omega)]
  exact List.getLast?_concat _

lemma intRange_mem {a b x : Int} (h : x ∈ intRange a b) : a ≤ x ∧ x ≤ b := by
  simp only [intRange, List.mem_map, List.mem_range] at h
  obtain ⟨i, hi, rfl⟩ := h
  omega

/-! ## The planner's `k`: smallest `k` with `k*(k+1)/2 >= n` -/

lemma kLoop_ge (n : Int) (j : Nat) : (n : Int) ≤ ((kLoop n j * (kLoop n j + 1) / 2 : Nat) : Int) := by
  induction j using kLoop.induct n with
  | case1 j hlt ih => rw [kLoop, if_pos hlt]; exact ih
  | case2 j hlt => rw [kLoop, if_neg hlt]; omega

lemma kLoop_lt_of_lt (n : Int) (j : Nat) :
    ∀ i : Nat, j ≤ i → i < kLoop n j → ((i * (i + 1) / 2 : Nat) : Int) < n := by
  induction j using kLoop.induct n with
  | case1 j hlt ih =>
    intro i hji hik
    rw [kLoop, if_pos hlt] at hik
    rcases Nat.eq_or_lt_of_le hji with rfl | hji'
    · exact hlt
    · exact ih i hji' hik
  | case2 j hlt =>
    intro i hji hik
    rw [kLoop, if_neg hlt] at hik
    omega

lemma computeK_ge (n : Int) : (n : Int) ≤ ((computeK n * (computeK n + 1) / 2 : Nat) : Int) :=
  kLoop_ge n 0

lemma computeK_min (n : Int) : ∀ j : Nat, j < computeK n → ((j * (j + 1) / 2 : Nat) : Int) < n :=
  fun j hj => kLoop_lt_of_lt n 0 j (Nat.zero_le j) hj

/-! ## The break predicate as a Bool -/

lemma testBreaks_true {sF x : Int} (h : sF ≤ x) : testBreaks sF x = true := by
  simp [testBreaks, h]

lemma testBreaks_false {sF x : Int} (h : x < sF) : testBreaks sF x = false := by
  simp only [testBreaks, decide_eq_false_iff_not]
  omega

/-! ## Shape of the planned sequence -/

lemma seqLoop_zero (n c : Int) : seqLoop n c 0 = [] := rfl

lemma seqLoop_succ (n c : Int) (s : Nat) :
    seqLoop n c (s + 1) = if c < n then c :: seqLoop n (c + s) s else [] := rfl

lemma seqLoop_head? {n c y : Int} : ∀ {s : Nat},
    (seqLoop n c s).head? = some y → y = c ∧ 0 < s := by
  intro s
  cases s with
  | zero => intro h; simp [seqLoop_zero] at h
  | succ s =>
    intro h
    rw [seqLoop_succ] at h
    by_cases hc : c < n
    · rw [if_pos hc] at h
      simp at h
      exact ⟨h.symm, Nat.succ_pos s⟩
    · rw [if_neg hc] at h
      simp at h

lemma seqLoop_getD_zero {n c : Int} {s : Nat} (h : seqLoop n c s ≠ []) :
    (seqLoop n c s).getD 0 0 = c := by
  cases s with
  | zero => exact absurd (seqLoop_zero n c) h
  | succ s =>
    rw [seqLoop_succ] at h ⊢
    by_cases hc : c < n
    · rw [if_pos hc]; rfl
    · rw [if_neg hc] at h; exact absurd rfl h

lemma seqLoop_chain (n : Int) : ∀ (s : Nat) (c : Int), (seqLoop n c s).Chain' (· < ·) := by
  intro s
  induction s with
  | zero => intro c; simp [seqLoop_zero]
  | succ s ih =>
    intro c
    rw [seqLoop_succ]
    by_cases hc : c < n
    · rw [if_pos hc, List.chain'_cons']
      refine ⟨fun y hy => ?_, ih (c + s)⟩
      obtain ⟨rfl, hs⟩ := seqLoop_head? hy
      omega
    · rw [if_neg hc]; simp

lemma seqLoop_gap (n : Int) : ∀ (s : Nat) (c : Int) (i : Nat),
    i + 1 < (seqLoop n c s).length →
    (seqLoop n c s).getD (i + 1) 0 - (seqLoop n c s).getD i 0 = (s : Int) - (i + 1) := by
  intro s
  induction s with
  | zero => intro c i h; simp [seqLoop_zero] at h
  | succ s ih =>
    intro c i h
    rw [seqLoop_succ] at h ⊢
    by_cases hc : c < n
    · rw [if_pos hc] at h ⊢
      cases i with
      | zero =>
        simp only [List.getD_cons_succ, List.getD_cons_zero]
        have ht : (seqLoop n (c + s) s) ≠ [] := by
          intro he
          rw [List.length_cons, he] at h
          simp at h
        rw [seqLoop_getD_zero ht]
        push_cast
        ring
      | succ i =>
        simp only [List.getD_cons_succ]
        have := ih (c + s) i (by simpa using h)
        rw [this]
        push_cast
        ring
    · rw [if_neg hc] at h; simp at h

lemma seqLoop_last (n : Int) : ∀ (s : Nat) (c : Int), seqLoop n c s ≠ [] →
    (n ≤ (seqLoop n c s).getLastD 0 + ((s : Int) - (seqLoop n c s).length)) ∨
    ((seqLoop n c s).length = s ∧
      2 * (seqLoop n c s).getLastD 0 = 2 * c + (s : Int) * ((s : Int) - 1)) := by
  intro s
  induction s with
  | zero => intro c h; exact absurd (seqLoop_zero n c) h
  | succ s ih =>
    intro c h
    rw [seqLoop_succ] at h ⊢
    by_cases hc : c < n
    · rw [if_pos hc] at h ⊢
      by_cases ht : seqLoop n (c + s) s = []
      · rw [ht]
        cases s with
        | zero =>
          right
          refine ⟨rfl, ?_⟩
          have hgl : ([c] : List Int).getLastD 0 = c := rfl
          rw [hgl]
          push_cast
          ring
        | succ s' =>
          left
          rw [seqLoop_succ] at ht
          have hcs : ¬(c + ((s' + 1 : Nat) : Int) < n) := by
            intro hlt
            rw [if_pos hlt] at ht
            simp at ht
          have hgl : ([c] : List Int).getLastD 0 = c := rfl
          rw [hgl]
          simp only [List.length_cons, List.length_nil]
          push_cast at hcs ⊢
          omega
      · have hlast : (c :: seqLoop n (c + s) s).getLastD 0 = (seqLoop n (c + s) s).getLastD 0 := by
          rw [List.getLastD_cons]
          exact getLastD_of_ne_nil ht c 0
        rcases ih (c + s) ht with hA | ⟨hlen, hB⟩
        · left
          rw [hlast, List.length_cons]
          push_cast at hA ⊢
          omega
        · right
          constructor
          · rw [List.length_cons, hlen]
          · rw [hlast, hB]
            push_cast
            ring
    · rw [if_neg hc] at h; exact absurd rfl h

/-! ## Closed forms for the batch loops -/

lemma scanLoop_finds (sF f : Int) : ∀ (t : Nat) (lin : Int) (drops : List Int) (total : Nat),
    (sF - lin).toNat = t → lin ≤ sF → sF ≤ f →
    scanLoop sF f lin drops total =
      (drops ++ intRange lin sF, total + ((sF - lin).toNat + 1), some sF) := by
  intro t
  induction t with
  | zero =>
    intro lin drops total ht h1 h2
    have heq : lin = sF := by omega
    subst heq
    rw [scanLoop, if_pos h2, if_pos (testBreaks_true (le_refl lin))]
    rw [intRange_cons (le_refl lin), intRange_empty (by omega)]
    simp
  | succ t iht =>
    intro lin drops total ht h1 h2
    have hlt : lin < sF := by omega
    rw [scanLoop, if_pos (le_trans h1 h2), if_neg (by simp [testBreaks_false hlt])]
    rw [iht (lin + 1) (drops ++ [lin]) (total + 1) (by omega) (by omega) h2]
    rw [List.append_assoc, List.singleton_append, ← intRange_cons (le_of_lt hlt)]
    simp only [Prod.mk.injEq, true_and, and_true]
    omega

lemma fallbackScan_finds (n sF : Int) : ∀ (t : Nat) (lin : Int) (drops : List Int) (total : Nat),
    (sF - lin).toNat = t → lin ≤ sF → sF < n →
    fallbackScan n sF lin drops total =
      (drops ++ intRange lin sF, total + ((sF - lin).toNat + 1), some sF) := by
  intro t
  induction t with
  | zero =>
    intro lin drops total ht h1 h2
    have heq : lin = sF := by omega
    subst heq
    rw [fallbackScan, if_pos h2, if_pos (testBreaks_true (le_refl lin))]
    rw [intRange_cons (le_refl lin), intRange_empty (by omega)]
    simp
  | succ t iht =>
    intro lin drops total ht h1 h2
    have hlt : lin < sF := by omega
    rw [fallbackScan, if_pos (by omega), if_neg (by simp [testBreaks_false hlt])]
    rw [iht (lin + 1) (drops ++ [lin]) (total + 1) (by omega) (by omega) h2]
    rw [List.append_assoc, List.singleton_append, ← intRange_cons (le_of_lt hlt)]
    simp only [Prod.mk.injEq, true_and, and_true]
    omega

lemma descendLoop_safe (sF : Int) : ∀ (seq : List Int) (p : Int) (drops : List Int) (total : Nat),
    (∀ x ∈ seq, x < sF) →
    descendLoop sF p drops total seq = (drops ++ seq, total + seq.length, none) := by
  intro seq
  induction seq with
  | nil => intro p drops total _; simp [descendLoop]
  | cons a rest ih =>
    intro p drops total hsafe
    rw [descendLoop, if_neg (by simp [testBreaks_false (hsafe a (List.mem_cons_self a rest))])]
    rw [ih a (drops ++ [a]) (total + 1) (fun x hx => hsafe x (List.mem_cons_of_mem a hx))]
    simp only [List.append_assoc, List.singleton_append, List.length_cons, Prod.mk.injEq,
      true_and, and_true]
    omega

lemma descendLoop_first_break (sF : Int) :
    ∀ (front : List Int) (b : Int) (rest : List Int) (p : Int) (drops : List Int) (total : Nat),
    (∀ x ∈ front, x < sF) → sF ≤ b →
    descendLoop sF p drops total (front ++ b :: rest) =
      scanLoop sF b (front.getLastD p + 1) (drops ++ front ++ [b]) (total + front.length + 1) := by
  intro front
  induction front with
  | nil =>
    intro b rest p drops total _ hb
    rw [List.nil_append, descendLoop, if_pos (testBreaks_true hb)]
    simp [List.getLastD]
  | cons a front' ih =>
    intro b rest p drops total hsafe hb
    rw [List.cons_append, descendLoop,
      if_neg (by simp [testBreaks_false (hsafe a (List.mem_cons_self a front'))])]
    rw [ih b rest a (drops ++ [a]) (total + 1)
      (fun x hx => hsafe x (List.mem_cons_of_mem a hx)) hb]
    rw [List.getLastD_cons]
    simp only [List.append_assoc, List.singleton_append, List.length_cons]
    congr 1
    omega

lemma runAllSim_break (n sF : Int) (front : List Int) (b : Int) (rest : List Int)
    (hfront : ∀ x ∈ front, x < sF) (hb : sF ≤ b) (h0 : -1 < sF) :
    runAllSim n sF (front ++ b :: rest) =
      (front ++ b :: intRange (front.getLastD (-1) + 1) sF,
       front.length + 1 + ((sF - (front.getLastD (-1) + 1)).toNat + 1),
       sF) := by
  have hP : front.getLastD (-1) < sF := by
    by_cases hf : front = []
    · rw [hf]; simpa using h0
    · exact hfront _ (getLastD_mem hf (-1))
  simp only [runAllSim]
  rw [descendLoop_first_break sF front b rest (-1) [] 0 hfront hb]
  rw [scanLoop_finds sF b ((sF - (front.getLastD (-1) + 1)).toNat)
    (front.getLastD (-1) + 1) ([] ++ front ++ [b]) (0 + front.length + 1) rfl (by omega) hb]
  simp only [List.nil_append, List.append_assoc, List.singleton_append, Prod.mk.injEq,
    true_and, and_true]
  omega

lemma runAllSim_nobreak (n sF : Int) (seq : List Int)
    (hsafe : ∀ x ∈ seq, x < sF) (h0 : -1 < sF) (hn : sF < n) :
    runAllSim n sF seq =
      (seq ++ intRange (seq.getLastD (-1) + 1) sF,
       seq.length + ((sF - (seq.getLastD (-1) + 1)).toNat + 1),
       sF) := by
  have hL : seq.getLastD (-1) < sF := by
    by_cases hs : seq = []
    · rw [hs]; simpa using h0
    · exact hsafe _ (getLastD_mem hs (-1))
  simp only [runAllSim]
  rw [descendLoop_safe sF seq (-1) [] 0 hsafe]
  simp only [List.nil_append, Nat.zero_add]
  rw [fallbackScan_finds n sF ((sF - (seq.getLastD (-1) + 1)).toNat)
    (seq.getLastD (-1) + 1) seq seq.length rfl (by omega) hn]

/-! ## The incremental trajectory -/

lemma stepN_succ_back (sF : Int) : ∀ (m : Nat) (s : SolverState),
    stepN sF (m + 1) s = (step sF (stepN sF m s)).1 := by
  intro m
  induction m with
  | zero => intro s; rfl
  | succ m ih =>
    intro s
    show stepN sF (m + 1) (step sF s).1 = _
    rw [ih (step sF s).1]
    rfl

lemma mem_take_mono {l : List Int} {j j' : Nat} (h : j ≤ j') {x : Int}
    (hx : x ∈ l.take j) : x ∈ l.take j' := by
  have he : l.take j = (l.take j').take j := by rw [List.take_take, min_eq_left h]
  rw [he] at hx
  exact List.take_subset j _ hx

lemma step_phase1_state (sF : Int) (seq : List Int) (j : Nat)
    (hsafe : ∀ x ∈ seq.take j, x < sF) (hj : j < seq.length) :
    (step sF ⟨seq, seq.take j, none, j, false⟩).1 =
      ⟨seq, seq.take (j + 1), none, j + 1, false⟩ := by
  have hfind : (seq.take j).findIdx? (fun d => testBreaks sF d) = none :=
    List.findIdx?_eq_none_iff.mpr fun x hx => testBreaks_false (hsafe x hx)
  have hlen : (seq.take j).length = j := by rw [List.length_take]; omega
  simp only [step, hfind, hlen, if_pos hj, Bool.false_eq_true, if_false]
  rw [take_succ_getD hj (0 : Int)]

lemma stepN_phase1 (sF : Int) (seq : List Int) :
    ∀ j, j ≤ seq.length → (∀ x ∈ seq.take j, x < sF) →
    stepN sF j ⟨seq, [], none, 0, false⟩ = ⟨seq, seq.take j, none, j, false⟩ := by
  intro j
  induction j with
  | zero => intro _ _; simp [stepN]
  | succ j ih =>
    intro hj hsafe
    rw [stepN_succ_back, ih (by omega) (fun x hx => hsafe x (mem_take_mono (by omega) hx))]
    exact step_phase1_state sF seq j (fun x hx => hsafe x (mem_take_mono (by omega) hx))
      (by omega)

/-- One `step()` on a state whose drops are `front ++ b :: R` with `front`
all safe and `b` breaking: the linear-scan branch runs, testing
`prevSafe + 1 + R.length`. -/
lemma step_scan (sF : Int) (seq front : List Int) (b : Int) (R : List Int) (td : Nat)
    (hfront : ∀ x ∈ front, x < sF) (hb : sF ≤ b)
    (hcand : front.getLastD (-1) + 1 + (R.length : Int) ≤ b) :
    (step sF ⟨seq, front ++ b :: R, none, td, false⟩).1 =
      if front.getLastD (-1) + 1 + (R.length : Int) < sF then
        ⟨seq, front ++ b :: (R ++ [front.getLastD (-1) + 1 + (R.length : Int)]), none,
         td + 1, false⟩
      else
        ⟨seq, front ++ b :: (R ++ [front.getLastD (-1) + 1 + (R.length : Int)]),
         some (front.getLastD (-1) + 1 + (R.length : Int)), td + 1, true⟩ := by
  have hfind : (front ++ b :: R).findIdx? (fun d => testBreaks sF d) = some front.length := by
    have := findIdx?_first front b R 0
      (fun x hx => testBreaks_false (hfront x hx)) (testBreaks_true hb)
    simpa using this
  have hbf : (front ++ b :: R).getD front.length 0 = b := by
    rw [List.getD_append_right front (b :: R) 0 front.length (le_refl _)]
    simp
  have hprev : (if front.length = 0 then (-1 : Int)
      else (front ++ b :: R).getD (front.length - 1) 0) = front.getLastD (-1) := by
    by_cases hf : front = []
    · rw [if_pos (by rw [hf]; rfl), hf]; rfl
    · have hfl : front.length ≠ 0 := by
        intro h0; exact hf (List.length_eq_zero.mp h0)
      rw [if_neg hfl, List.getD_append front (b :: R) 0 (front.length - 1)
        (by omega : front.length - 1 < front.length)]
      rw [getD_length_sub_one hf 0]
      exact getLastD_of_ne_nil hf 0 (-1)
  have hdl : ((front ++ b :: R).length : Int) = front.length + 1 + R.length := by
    simp only [List.length_append, List.length_cons]
    push_cast
    ring
  have hnl : front.getLastD (-1) + 1 + (((front ++ b :: R).length : Int) - (front.length + 1))
      = front.getLastD (-1) + 1 + (R.length : Int) := by
    rw [hdl]; ring
  simp only [step, hfind, Bool.false_eq_true, if_false, hbf, hprev, hnl, if_pos hcand]
  by_cases hlt : front.getLastD (-1) + 1 + (R.length : Int) < sF
  · rw [if_pos hlt, if_neg (by rw [testBreaks_false hlt]; simp)]
    simp only [List.append_assoc, List.cons_append]
  · rw [if_neg hlt, if_pos (testBreaks_true (by omega))]
    simp only [List.append_assoc, List.cons_append]

lemma take_length_succ_append (l1 : List Int) (a : Int) (l2 : List Int) :
    (l1 ++ a :: l2).take (l1.length + 1) = l1 ++ [a] := by
  induction l1 with
  | nil => rfl
  | cons x t ih => simp only [List.cons_append, List.length_cons, List.take_succ_cons, ih]

lemma stepN_scan (sF : Int) (front : List Int) (b : Int) (rest : List Int)
    (hfront : ∀ x ∈ front, x < sF) (hb : sF ≤ b) :
    ∀ t : Nat, front.getLastD (-1) + 1 + (t : Int) ≤ sF →
    stepN sF (front.length + 1 + t) ⟨front ++ b :: rest, [], none, 0, false⟩ =
      ⟨front ++ b :: rest,
       front ++ b :: intRange (front.getLastD (-1) + 1) (front.getLastD (-1) + t),
       none, front.length + 1 + t, false⟩ := by
  have hsafe' : ∀ x ∈ (front ++ b :: rest).take front.length, x < sF := by
    intro x hx
    rw [List.take_left] at hx
    exact hfront x hx
  have hlt : front.length < (front ++ b :: rest).length := by
    simp only [List.length_append, List.length_cons]
    omega
  intro t
  induction t with
  | zero =>
    intro ht
    rw [stepN_succ_back sF front.length,
      stepN_phase1 sF (front ++ b :: rest) front.length (le_of_lt hlt) hsafe']
    rw [step_phase1_state sF (front ++ b :: rest) front.length hsafe' hlt]
    rw [intRange_empty (by push_cast; omega), take_length_succ_append]
  | succ t ih =>
    intro ht
    rw [show front.length + 1 + (t + 1) = (front.length + 1 + t) + 1 by omega]
    rw [stepN_succ_back, ih (by push_cast at ht ⊢; omega)]
    rw [step_scan sF (front ++ b :: rest) front b
      (intRange (front.getLastD (-1) + 1) (front.getLastD (-1) + t)) (front.length + 1 + t)
      hfront hb
      (by rw [intRange_length]; push_cast at ht ⊢; omega)]
    rw [if_pos (by rw [intRange_length]; push_cast at ht ⊢; omega)]
    have hR : (intRange (front.getLastD (-1) + 1) (front.getLastD (-1) + t)).length = t := by
      rw [intRange_length]; omega
    rw [hR]
    have hsnoc : intRange (front.getLastD (-1) + 1) (front.getLastD (-1) + t) ++
        [front.getLastD (-1) + 1 + (t : Int)] =
        intRange (front.getLastD (-1) + 1) (front.getLastD (-1) + (t + 1 : Nat)) := by
      have h1 : front.getLastD (-1) + ((t : Nat) + 1 : Nat) = (front.getLastD (-1) + t) + 1 := by
        push_cast; ring
      rw [h1, intRange_snoc (by omega)]
      congr 1
      rw [show front.getLastD (-1) + (t : Int) + 1 = front.getLastD (-1) + 1 + t by ring]
    rw [hsnoc]

/-- After exactly `front.length + 1 + (secretF - prevSafe - 1) + 1` steps the
incremental engine finds `secretF`. -/
lemma stepN_found (sF : Int) (front : List Int) (b : Int) (rest : List Int)
    (hfront : ∀ x ∈ front, x < sF) (hb : sF ≤ b) (h0 : -1 < sF) :
    stepN sF (front.length + 1 + ((sF - (front.getLastD (-1) + 1)).toNat + 1))
        ⟨front ++ b :: rest, [], none, 0, false⟩ =
      ⟨front ++ b :: rest, front ++ b :: intRange (front.getLastD (-1) + 1) sF, some sF,
       front.length + 1 + ((sF - (front.getLastD (-1) + 1)).toNat + 1), true⟩ := by
  have hP : front.getLastD (-1) < sF := by
    by_cases hf : front = []
    · rw [hf]; simpa using h0
    · exact hfront _ (getLastD_mem hf (-1))
  set P := front.getLastD (-1) with hPdef
  set T := (sF - (P + 1)).toNat with hTdef
  have hPT : P + 1 + (T : Int) = sF := by omega
  rw [show front.length + 1 + (T + 1) = front.length + 1 + T + 1 from rfl]
  rw [stepN_succ_back, stepN_scan sF front b rest hfront hb T (by omega)]
  rw [step_scan sF (front ++ b :: rest) front b (intRange (P + 1) (P + T))
    (front.length + 1 + T) hfront hb (by rw [intRange_length]; omega)]
  have hR : (intRange (P + 1) (P + T)).length = T := by rw [intRange_length]; omega
  rw [hR, if_neg (by omega)]
  have hsnoc : intRange (P + 1) (P + T) ++ [P + 1 + (T : Int)] = intRange (P + 1) sF := by
    rw [show P + 1 + (T : Int) = (P + (T : Int)) + 1 by ring, ← intRange_snoc (by omega)]
    rw [show (P + (T : Int)) + 1 = sF by omega]
  rw [hsnoc, hPT]

/-! ## `totalDrops = drops.length` preservation -/

lemma scanLoop_len (sF f : Int) : ∀ (lin : Int) (drops : List Int) (total : Nat),
    total = drops.length →
    (scanLoop sF f lin drops total).2.1 = (scanLoop sF f lin drops total).1.length := by
  intro lin drops total
  induction lin, drops, total using scanLoop.induct sF f with
  | case1 lin drops total h1 h2 =>
    intro h
    rw [scanLoop, if_pos h1, if_pos h2]
    simp [h]
  | case2 lin drops total h1 h2 ih =>
    intro h
    rw [scanLoop, if_pos h1, if_neg h2]
    exact ih (by simp [h])
  | case3 lin drops total h1 =>
    intro h
    rw [scanLoop, if_neg h1]
    exact h

lemma fallbackScan_len (n sF : Int) : ∀ (lin : Int) (drops : List Int) (total : Nat),
    total = drops.length →
    (fallbackScan n sF lin drops total).2.1 = (fallbackScan n sF lin drops total).1.length := by
  intro lin drops total
  induction lin, drops, total using fallbackScan.induct n sF with
  | case1 lin drops total h1 h2 =>
    intro h
    rw [fallbackScan, if_pos h1, if_pos h2]
    simp [h]
  | case2 lin drops total h1 h2 ih =>
    intro h
    rw [fallbackScan, if_pos h1, if_neg h2]
    exact ih (by simp [h])
  | case3 lin drops total h1 =>
    intro h
    rw [fallbackScan, if_neg h1]
    exact h

lemma descendLoop_len (sF : Int) : ∀ (seq : List Int) (p : Int) (drops : List Int) (total : Nat),
    total = drops.length →
    (descendLoop sF p drops total seq).2.1 = (descendLoop sF p drops total seq).1.length := by
  intro seq
  induction seq with
  | nil => intro p drops total h; exact h
  | cons a rest ih =>
    intro p drops total h
    rw [descendLoop]
    by_cases hbr : testBreaks sF a = true
    · rw [if_pos hbr]
      exact scanLoop_len sF a (p + 1) (drops ++ [a]) (total + 1) (by simp [h])
    · rw [if_neg hbr]
      exact ih a (drops ++ [a]) (total + 1) (by simp [h])

lemma runAllSim_len (n sF : Int) (seq : List Int) :
    (runAllSim n sF seq).2.1 = (runAllSim n sF seq).1.length := by
  rw [runAllSim]
  have h1 : (descendLoop sF (-1) [] 0 seq).2.1 = (descendLoop sF (-1) [] 0 seq).1.length :=
    descendLoop_len sF seq (-1) [] 0 rfl
  cases hc : (descendLoop sF (-1) [] 0 seq).2.2 with
  | some v => simp only [hc, h1]
  | none =>
    simp only [hc]
    exact fallbackScan_len n sF ((descendLoop sF (-1) [] 0 seq).1.getLastD (-1) + 1)
      (descendLoop sF (-1) [] 0 seq).1 (descendLoop sF (-1) [] 0 seq).2.1 h1

lemma step_len (sF : Int) (s : SolverState) (h : s.totalDrops = s.drops.length) :
    (step sF s).1.totalDrops = (step sF s).1.drops.length := by
  rw [step]
  split
  · exact h
  · split
    · dsimp only
      split
      · simp [h]
      · exact h
    · dsimp only
      repeat' split
      all_goals first
        | exact h
        | simp [h]

lemma plan_len (n : Int) : (plan n).totalDrops = (plan n).drops.length := by
  rw [plan]
  split
  · rfl
  · rfl

lemma runAll_len (n sF : Int) (s : SolverState) :
    (runAll n sF s).1.totalDrops = (runAll n sF s).1.drops.length :=
  runAllSim_len n sF s.sequence

/-! ## The first breaking entry of `drops` -/

/-- The first entry of `drops` satisfying the break predicate, as the
scan branch of `step()` computes it: `drops[drops.findIndex(testBreaks)]`. -/
def firstBreak (sF : Int) (drops : List Int) : Option Int :=
  (drops.findIdx? (fun d => testBreaks sF d)).map (fun i => drops.getD i 0)

lemma step_break_bound (sF : Int) (s : SolverState) (bf : Int)
    (h : firstBreak sF s.drops = some bf) :
    ((step sF s).1.drops = s.drops ∨
      ∃ x, (step sF s).1.drops = s.drops ++ [x] ∧ x ≤ bf) ∧
    firstBreak sF (step sF s).1.drops = some bf := by
  obtain ⟨i, hi, hbf⟩ := Option.map_eq_some'.mp h
  have hlt : i < s.drops.length := by
    have := findIdx?_some_bounds s.drops 0 i hi
    omega
  have hpres : ∀ x : Int, firstBreak sF (s.drops ++ [x]) = some bf := by
    intro x
    rw [firstBreak, findIdx?_append_some s.drops [x] 0 i hi]
    simp only [Option.map_some']
    rw [List.getD_append s.drops [x] 0 i hlt, hbf]
  rw [step]
  by_cases hfin : s.finished = true
  · rw [if_pos hfin]
    exact ⟨Or.inl rfl, h⟩
  · rw [if_neg hfin, hi]
    dsimp only
    rw [hbf]
    by_cases hiz : i = 0
    · rw [if_pos hiz]
      by_cases hg : (-1 : Int) + 1 + ((s.drops.length : Int) - ((i : Int) + 1)) ≤ bf
      · rw [if_pos hg]
        by_cases htb :
            testBreaks sF ((-1 : Int) + 1 + ((s.drops.length : Int) - ((i : Int) + 1))) = true
        · rw [if_pos htb]
          exact ⟨Or.inr ⟨_, rfl, hg⟩, hpres _⟩
        · rw [if_neg htb]
          exact ⟨Or.inr ⟨_, rfl, hg⟩, hpres _⟩
      · rw [if_neg hg]
        exact ⟨Or.inl rfl, h⟩
    · rw [if_neg hiz]
      by_cases hg : s.drops.getD (i - 1) 0 + 1 + ((s.drops.length : Int) - ((i : Int) + 1)) ≤ bf
      · rw [if_pos hg]
        by_cases htb :
            testBreaks sF (s.drops.getD (i - 1) 0 + 1 +
              ((s.drops.length : Int) - ((i : Int) + 1))) = true
        · rw [if_pos htb]
          exact ⟨Or.inr ⟨_, rfl, hg⟩, hpres _⟩
        · rw [if_neg htb]
          exact ⟨Or.inr ⟨_, rfl, hg⟩, hpres _⟩
      · rw [if_neg hg]
        exact ⟨Or.inl rfl, h⟩

lemma stepN_break_bound (sF : Int) (s : SolverState) (bf : Int)
    (h : firstBreak sF s.drops = some bf) :
    ∀ m : Nat, ∃ ext, (stepN sF m s).drops = s.drops ++ ext ∧ (∀ d ∈ ext, d ≤ bf) ∧
      firstBreak sF (stepN sF m s).drops = some bf := by
  intro m
  induction m with
  | zero => exact ⟨[], by simp [stepN], by simp, h⟩
  | succ m ih =>
    obtain ⟨ext, he, hb, hfb⟩ := ih
    rw [stepN_succ_back]
    rcases (step_break_bound sF (stepN sF m s) bf hfb).1 with heq | ⟨x, hx, hxb⟩
    · exact ⟨ext, by rw [heq, he], hb, by rw [heq]; exact hfb⟩
    · refine ⟨ext ++ [x], by rw [hx, he, List.append_assoc], ?_, ?_⟩
      · intro d hd
        rcases List.mem_append.mp hd with hd1 | hd2
        · exact hb d hd1
        · rw [List.mem_singleton.mp hd2]; exact hxb
      · exact (step_break_bound sF (stepN sF m s) bf hfb).2

/-! ## Fields of freshly planned states -/

lemma plan_eta (n : Int) (h : 0 < n) :
    plan n = ⟨(plan n).sequence, [], none, 0, false⟩ := by
  rw [plan, if_neg (by omega)]

lemma plan_sequence_ne_nil (n : Int) (h : 0 < n) : (plan n).sequence ≠ [] := by
  rw [plan, if_neg (by omega)]
  show (if (seqLoop n (computeK n) (computeK n)).length = 0 then _ else _) ≠ []
  split
  · simp
  · rename_i hlen
    intro he
    rw [he] at hlen
    exact hlen rfl

lemma exists_first_lt_split {sF : Int} : ∀ (l : List Int), (∃ x ∈ l, sF ≤ x) →
    ∃ front b rest, l = front ++ b :: rest ∧ (∀ x ∈ front, x < sF) ∧ sF ≤ b := by
  intro l
  induction l with
  | nil => rintro ⟨x, hx, _⟩; simp at hx
  | cons a t ih =>
    rintro ⟨x, hx, hsx⟩
    by_cases ha : sF ≤ a
    · exact ⟨[], a, t, rfl, by simp, ha⟩
    · have hx' : x ∈ t := by
        rcases List.mem_cons.mp hx with rfl | hmem
        · exact absurd hsx ha
        · exact hmem
      obtain ⟨front, b, rest, rfl, hfr, hb⟩ := ih ⟨x, hx', hsx⟩
      refine ⟨a :: front, b, rest, rfl, ?_, hb⟩
      intro y hy
      rcases List.mem_cons.mp hy with rfl | hmem
      · omega
      · exact hfr y hmem

lemma plan_nine :
    plan 9 = ⟨[4, 7], [], none, 0, false⟩ := by
  simp [plan, computeK, kLoop, seqLoop]

lemma plan_ten :
    plan 10 = ⟨[4, 7, 9], [], none, 0, false⟩ := by
  simp [plan, computeK, kLoop, seqLoop]

lemma runAll_proj (n sF : Int) (s : SolverState) :
    (runAll n sF s).1.foundFloor = some (runAllSim n sF s.sequence).2.2 ∧
    (runAll n sF s).1.totalDrops = (runAllSim n sF s.sequence).2.1 ∧
    (runAll n sF s).1.drops = (runAllSim n sF s.sequence).1 :=
  ⟨rfl, rfl, rfl⟩

/-- On any sequence, a valid `(n, secretF)` makes the batch simulation
return `found = secretF`, with `secretF` as the last drop pushed. -/
lemma runAllSim_found (n sF : Int) (seq : List Int) (h2 : 0 ≤ sF) (h3 : sF < n) :
    (runAllSim n sF seq).2.2 = sF ∧ (runAllSim n sF seq).1.getLast? = some sF := by
  by_cases hex : ∃ x ∈ seq, sF ≤ x
  · obtain ⟨front, b, rest, rfl, hfr, hb⟩ := exists_first_lt_split seq hex
    have hP : front.getLastD (-1) < sF := by
      by_cases hf : front = []
      · rw [hf]; simpa using h2
      · exact hfr _ (getLastD_mem hf (-1))
    rw [runAllSim_break n sF front b rest hfr hb (by omega)]
    refine ⟨rfl, ?_⟩
    rw [show front ++ b :: intRange (front.getLastD (-1) + 1) sF
          = (front ++ [b]) ++ intRange (front.getLastD (-1) + 1) sF by
        rw [List.append_assoc]; rfl]
    rw [List.getLast?_append, intRange_getLast? (by omega)]
    rfl
  · have hall : ∀ x ∈ seq, x < sF := by
      intro x hx
      by_contra hc
      exact hex ⟨x, hx, by omega⟩
    have hL : seq.getLastD (-1) < sF := by
      by_cases hs : seq = []
      · rw [hs]; simpa using h2
      · exact hall _ (getLastD_mem hs (-1))
    rw [runAllSim_nobreak n sF seq hall (by omega) h3]
    refine ⟨rfl, ?_⟩
    rw [List.getLast?_append, intRange_getLast? (by omega)]
    rfl

/-- The hook-level planning interface: `useCrystalBallSolver` receives
`{ n, secretF }`; its `useMemo` for `k` and its planning `useEffect` read
only `n`. -/
def useCrystalBallSolverPlan (n secretF : Int) : Nat × List Int :=
  (computeK n, (plan n).sequence)

/-! ## Claim theorems -/

/-- C1: for every configuration with `n > 0` and `0 <= secretF < n`,
running `runAll()` on a freshly planned state sets
`foundFloor = secretF`. -/
theorem runAll_finds_secret (n secretF : Int)
    (h1 : 0 < n) (h2 : 0 ≤ secretF) (h3 : secretF < n) :
    ((runAll n secretF (plan n)).1).foundFloor = some secretF := by
  rw [(runAll_proj n secretF (plan n)).1,
    (runAllSim_found n secretF (plan n).sequence h2 h3).1]

theorem runAll_finds_secret_witness :
    (0 : Int) < 10 ∧ (0 : Int) ≤ 7 ∧ (7 : Int) < 10 ∧
    ((runAll 10 7 (plan 10)).1).foundFloor = some 7 :=
  ⟨by norm_num, by norm_num, by norm_num,
    runAll_finds_secret 10 7 (by norm_num) (by norm_num) (by norm_num)⟩

/-- C3: for every `n > 0`, the planner's `k` satisfies `k*(k+1)/2 >= n`,
and every `j < k` satisfies `j*(j+1)/2 < n`. -/
theorem planner_k_minimal (n : Int) (h : 0 < n) :
    (n : Int) ≤ ((computeK n * (computeK n + 1) / 2 : Nat) : Int) ∧
    ∀ j : Nat, j < computeK n → ((j * (j + 1) / 2 : Nat) : Int) < n :=
  ⟨computeK_ge n, computeK_min n⟩

theorem planner_k_minimal_witness :
    (0 : Int) < 5 ∧
    ((5 : Int) ≤ ((computeK 5 * (computeK 5 + 1) / 2 : Nat) : Int) ∧
      ∀ j : Nat, j < computeK 5 → ((j * (j + 1) / 2 : Nat) : Int) < 5) :=
  ⟨by norm_num, planner_k_minimal 5 (by norm_num)⟩

/-- C6: when `finished` is true, `step()` returns the unchanged state and
the terminal marker, so no further probe is ever appended. -/
theorem step_noop_when_finished (secretF : Int) (s : SolverState) (h : s.finished = true) :
    step secretF s = (s, ⟨"finished", none, none⟩) := by
  rw [step, if_pos h]

theorem step_noop_when_finished_witness :
    (⟨[], [0], some 0, 1, true⟩ : SolverState).finished = true ∧
    step 0 ⟨[], [0], some 0, 1, true⟩ =
      (⟨[], [0], some 0, 1, true⟩, ⟨"finished", none, none⟩) :=
  ⟨rfl, step_noop_when_finished 0 ⟨[], [0], some 0, 1, true⟩ rfl⟩

/-- C7: `totalDrops = drops.length` holds for every freshly planned state
and for the reset state, and is preserved by `step()` and (unconditionally
re-established) by `runAll()`. -/
theorem totalDrops_eq_length_invariant :
    (∀ n : Int, (plan n).totalDrops = (plan n).drops.length) ∧
    (∀ (secretF : Int) (s : SolverState), s.totalDrops = s.drops.length →
      (step secretF s).1.totalDrops = (step secretF s).1.drops.length) ∧
    (∀ (n secretF : Int) (s : SolverState),
      (runAll n secretF s).1.totalDrops = (runAll n secretF s).1.drops.length) ∧
    resetState.totalDrops = resetState.drops.length :=
  ⟨plan_len, step_len, runAll_len, rfl⟩

theorem totalDrops_eq_length_invariant_witness :
    resetState.totalDrops = resetState.drops.length ∧
    (step 0 resetState).1.totalDrops = (step 0 resetState).1.drops.length :=
  ⟨rfl, totalDrops_eq_length_invariant.2.1 0 resetState rfl⟩

/-- C8: the planner's output (`k` and the probe sequence) is a function of
`n` alone, independent of `secretF`. -/
theorem planner_ignores_secret (n s1 s2 : Int) :
    useCrystalBallSolverPlan n s1 = useCrystalBallSolverPlan n s2 := rfl

/-- C9: once `drops` contains a breaking entry, every floor appended by
any number of subsequent `step()` calls is at most the first breaking
entry of `drops`. -/
theorem scan_bounded_by_break (secretF : Int) (s : SolverState) (bf : Int) (m : Nat)
    (h : firstBreak secretF s.drops = some bf) :
    ∀ d ∈ ((stepN secretF m s).drops).drop s.drops.length, d ≤ bf := by
  obtain ⟨ext, he, hb, _⟩ := stepN_break_bound secretF s bf h m
  rw [he, List.drop_left]
  exact hb

theorem scan_bounded_by_break_witness :
    firstBreak 0 (⟨[1], [1], none, 1, false⟩ : SolverState).drops = some 1 ∧
    ∀ d ∈ ((stepN 0 1 ⟨[1], [1], none, 1, false⟩).drops).drop
        (⟨[1], [1], none, 1, false⟩ : SolverState).drops.length, d ≤ 1 :=
  ⟨by decide, scan_bounded_by_break 0 ⟨[1], [1], none, 1, false⟩ 1 1 (by decide)⟩

/-- C10: after `runAll()` on a freshly planned valid configuration, the
drops list is non-empty and `foundFloor` is its last element. -/
theorem runAll_found_is_last_drop (n secretF : Int)
    (h1 : 0 < n) (h2 : 0 ≤ secretF) (h3 : secretF < n) :
    ((runAll n secretF (plan n)).1).drops ≠ [] ∧
    ((runAll n secretF (plan n)).1).drops.getLast? =
      ((runAll n secretF (plan n)).1).foundFloor := by
  obtain ⟨hf, hl⟩ := runAllSim_found n secretF (plan n).sequence h2 h3
  obtain ⟨hp1, _, hp3⟩ := runAll_proj n secretF (plan n)
  constructor
  · rw [hp3]
    intro he
    rw [he] at hl
    simp at hl
  · rw [hp3, hp1, hl, hf]

theorem runAll_found_is_last_drop_witness :
    (0 : Int) < 10 ∧ (0 : Int) ≤ 7 ∧ (7 : Int) < 10 ∧
    (((runAll 10 7 (plan 10)).1).drops ≠ [] ∧
      ((runAll 10 7 (plan 10)).1).drops.getLast? =
        ((runAll 10 7 (plan 10)).1).foundFloor) :=
  ⟨by norm_num, by norm_num, by norm_num,
    runAll_found_is_last_drop 10 7 (by norm_num) (by norm_num) (by norm_num)⟩

/-- C5 counterexample: the claim asserts that after applying a
configuration with `n <= 0` the engine reports `finished = true` before
any `step()`/`runAll()`; the code's planning effect calls `reset()`, which
leaves `finished = false`. -/
theorem plan_nonpositive_not_finished : ¬ ((plan 0).finished = true) := by
  decide

/-- C5 amended: for `n <= 0` the planned state has empty sequence, no
drops, no foundFloor and zero totalDrops, but `finished = false`; the
first `step()` call then merely sets `finished = true` without recording
any probe. -/
theorem plan_nonpositive (n secretF : Int) (h : n ≤ 0) :
    plan n = resetState ∧ resetState.finished = false ∧
    step secretF (plan n) =
      ({ resetState with finished := true }, ⟨"finished", none, none⟩) := by
  have hp : plan n = resetState := by rw [plan, if_pos h]
  exact ⟨hp, rfl, by rw [hp]; rfl⟩

theorem plan_nonpositive_witness :
    (0 : Int) ≤ 0 ∧
    (plan 0 = resetState ∧ resetState.finished = false ∧
      step 0 (plan 0) =
        ({ resetState with finished := true }, ⟨"finished", none, none⟩)) :=
  ⟨le_refl 0, plan_nonpositive 0 0 (le_refl 0)⟩

lemma plan_sequence_def (n : Int) (h : 0 < n) :
    (plan n).sequence =
      if (seqLoop n (computeK n) (computeK n)).length = 0
      then [min ((computeK n : Nat) : Int) (n - 1)]
      else seqLoop n (computeK n) (computeK n) := by
  rw [plan, if_neg (by omega)]

/-- C4 counterexample: at `n = 9` the planner yields `k = 4` and
`sequence = [4, 7]`, whose last element `7` is below `n - 1 = 8`. -/
theorem planner_last_below_top :
    ¬ ((9 : Int) - 1 ≤ (plan 9).sequence.getLastD 0) := by
  rw [plan_nine]
  decide

/-- C4 amended: for every `n > 0` the planned sequence is non-empty and
strictly increasing; when the building loop produces entries, the first is
`k`, successive gaps decrease by 1 starting from `k`, and the last element
plus the remaining step budget `k - length` reaches at least `n` (instead
of the claimed `last >= n - 1`); when zero full steps fit, the sequence is
the single entry `min(k, n-1)`. -/
theorem planner_sequence_shape (n : Int) (h : 0 < n) :
    (plan n).sequence ≠ [] ∧
    (plan n).sequence.Chain' (· < ·) ∧
    (if (seqLoop n (computeK n) (computeK n)).length = 0
     then (plan n).sequence = [min ((computeK n : Nat) : Int) (n - 1)]
     else ((plan n).sequence.getD 0 0 = ((computeK n : Nat) : Int) ∧
       (∀ i : Nat, i + 1 < (plan n).sequence.length →
         (plan n).sequence.getD (i + 1) 0 - (plan n).sequence.getD i 0
           = ((computeK n : Nat) : Int) - (i + 1)) ∧
       (n : Int) ≤ (plan n).sequence.getLastD 0 +
         (((computeK n : Nat) : Int) - (plan n).sequence.length))) := by
  rw [plan_sequence_def n h]
  by_cases hz : (seqLoop n (computeK n) (computeK n)).length = 0
  · rw [if_pos hz, if_pos hz]
    refine ⟨by simp, by simp, rfl⟩
  · rw [if_neg hz, if_neg hz]
    have hne : seqLoop n (computeK n) (computeK n) ≠ [] := by
      intro he
      rw [he] at hz
      exact hz rfl
    refine ⟨hne, seqLoop_chain n (computeK n) (computeK n), seqLoop_getD_zero hne,
      seqLoop_gap n (computeK n) (computeK n), ?_⟩
    rcases seqLoop_last n (computeK n) (computeK n) hne with hA | ⟨hlen, hB⟩
    · exact hA
    · have hdiv : 2 * ((computeK n * (computeK n + 1) / 2 : Nat) : Int)
          = ((computeK n * (computeK n + 1) : Nat) : Int) := by
        have hmod : (computeK n * (computeK n + 1)) % 2 = 0 :=
          Nat.even_iff.mp (Nat.even_mul_succ_self (computeK n))
        omega
      have hkk : ((computeK n * (computeK n + 1) : Nat) : Int)
          = ((computeK n : Nat) : Int) * ((computeK n : Nat) : Int) + ((computeK n : Nat) : Int) := by
        push_cast
        ring
      have hge := computeK_ge n
      have hB' : 2 * (seqLoop n (computeK n) (computeK n)).getLastD 0
          = ((computeK n : Nat) : Int) * ((computeK n : Nat) : Int) + ((computeK n : Nat) : Int) := by
        rw [hB]
        ring
      rw [hlen]
      have : (n : Int) ≤ (seqLoop n (computeK n) (computeK n)).getLastD 0 := by omega
      omega

theorem planner_sequence_shape_witness :
    (0 : Int) < 10 ∧
    ((plan 10).sequence ≠ [] ∧
    (plan 10).sequence.Chain' (· < ·) ∧
    (if (seqLoop 10 (computeK 10) (computeK 10)).length = 0
     then (plan 10).sequence = [min ((computeK 10 : Nat) : Int) (10 - 1)]
     else ((plan 10).sequence.getD 0 0 = ((computeK 10 : Nat) : Int) ∧
       (∀ i : Nat, i + 1 < (plan 10).sequence.length →
         (plan 10).sequence.getD (i + 1) 0 - (plan 10).sequence.getD i 0
           = ((computeK 10 : Nat) : Int) - (i + 1)) ∧
       ((10 : Int) : Int) ≤ (plan 10).sequence.getLastD 0 +
         (((computeK 10 : Nat) : Int) - (plan 10).sequence.length)))) :=
  ⟨by norm_num, planner_sequence_shape 10 (by norm_num)⟩

/-- C2 counterexample: at `n = 9`, `secretF = 8` the planned sequence is
`[4, 7]` and no planned probe breaks. The incremental path finishes after
3 steps with `foundFloor = none` and `totalDrops = 2` (and stays there),
while `runAll()` falls back to scanning and returns `foundFloor = 8` with
`totalDrops = 3`. -/
theorem step_runAll_diverge :
    (stepN 8 3 (plan 9)).finished = true ∧
    stepN 8 4 (plan 9) = stepN 8 3 (plan 9) ∧
    (stepN 8 3 (plan 9)).foundFloor = none ∧
    (stepN 8 3 (plan 9)).totalDrops = 2 ∧
    ((runAll 9 8 (plan 9)).1).foundFloor = some 8 ∧
    ((runAll 9 8 (plan 9)).1).totalDrops = 3 := by
  rw [plan_nine]
  refine ⟨by decide, by decide, by decide, by decide, ?_, ?_⟩ <;>
    simp [runAll, runAllSim, descendLoop, scanLoop, fallbackScan, testBreaks]

/-- C2 amended: whenever at least one planned probe floor is at least
`secretF` (in particular whenever `secretF` does not exceed the last
planned probe), driving the freshly planned engine by repeated `step()`
calls reaches `finished = true` with exactly the `foundFloor` and
`totalDrops` of a single `runAll()`; when `secretF` is above every planned
probe the two paths diverge as in the counterexample. -/
theorem step_agrees_with_runAll (n secretF : Int) (h1 : 0 < n) (h2 : 0 ≤ secretF)
    (h3 : secretF < n) (hcov : ∃ x ∈ (plan n).sequence, secretF ≤ x) :
    ∃ m : Nat,
      (∀ j, j < m → (stepN secretF j (plan n)).finished = false) ∧
      (stepN secretF m (plan n)).finished = true ∧
      (stepN secretF m (plan n)).foundFloor = ((runAll n secretF (plan n)).1).foundFloor ∧
      (stepN secretF m (plan n)).totalDrops = ((runAll n secretF (plan n)).1).totalDrops := by
  obtain ⟨front, b, rest, hsplit, hfr, hb⟩ := exists_first_lt_split (plan n).sequence hcov
  have hP : front.getLastD (-1) < secretF := by
    by_cases hf : front = []
    · rw [hf]; simpa using h2
    · exact hfr _ (getLastD_mem hf (-1))
  have hplan : plan n = ⟨front ++ b :: rest, [], none, 0, false⟩ := by
    rw [plan_eta n h1, hsplit]
  have hbatch := runAllSim_break n secretF front b rest hfr hb (by omega)
  obtain ⟨hp1, hp2, _⟩ := runAll_proj n secretF (plan n)
  refine ⟨front.length + 1 + ((secretF - (front.getLastD (-1) + 1)).toNat + 1), ?_, ?_, ?_, ?_⟩
  · intro j hj
    rw [hplan]
    by_cases hjf : j ≤ front.length
    · rw [stepN_phase1 secretF (front ++ b :: rest) j
        (by simp only [List.length_append, List.length_cons]; omega)
        (fun x hx => hfr x (by
          rw [← List.take_left front (b :: rest)]
          exact mem_take_mono hjf hx))]
    · rw [show j = front.length + 1 + (j - (front.length + 1)) by omega]
      rw [stepN_scan secretF front b rest hfr hb (j - (front.length + 1)) (by
        push_cast
        omega)]
  · rw [hplan, stepN_found secretF front b rest hfr hb (by omega)]
  · rw [hp1, hsplit, hbatch, hplan, stepN_found secretF front b rest hfr hb (by omega)]
  · rw [hp2, hsplit, hbatch, hplan, stepN_found secretF front b rest hfr hb (by omega)]

theorem step_agrees_with_runAll_witness :
    (0 : Int) < 10 ∧ (0 : Int) ≤ 7 ∧ (7 : Int) < 10 ∧
    (∃ x ∈ (plan 10).sequence, (7 : Int) ≤ x) ∧
    (∃ m : Nat,
      (∀ j, j < m → (stepN 7 j (plan 10)).finished = false) ∧
      (stepN 7 m (plan 10)).finished = true ∧
      (stepN 7 m (plan 10)).foundFloor = ((runAll 10 7 (plan 10)).1).foundFloor ∧
      (stepN 7 m (plan 10)).totalDrops = ((runAll 10 7 (plan 10)).1).totalDrops) :=
  ⟨by norm_num, by norm_num, by norm_num, by rw [plan_ten]; decide,
    step_agrees_with_runAll 10 7 (by norm_num) (by norm_num) (by norm_num)
      (by rw [plan_ten]; decide)⟩

end CrystalBall
